import Mathlib

/-!
Verification of the KVDK sorted-collection core (skip list index, sorted
iterator and hash-table geometry) against a shallow embedding of the C++
sources in `engine/skiplist.hpp` and the hash-table header.

Byte strings (keys, values) are modelled as `List Nat`; PMem is modelled as a
total map from offsets to records, with offset `0` playing the role of the
null PMem offset (`offset2addr` of the null offset yields a null pointer).
-/

/-- Record type tags of sorted records (from `structures.hpp`, only the tags
the sorted path uses are modelled). -/
inductive RecordType where
  | SortedHeaderRecord
  | SortedDataRecord
  | SortedDeleteRecord
  deriving DecidableEq, Repr

/-- `DLDataEntry`: a sorted record on PMem with its doubly-linked `prev` /
`next` neighbour offsets, type tag, key bytes and value bytes. -/
structure DLDataEntry where
  type : RecordType
  key : List Nat
  value : List Nat
  prev : Nat
  next : Nat
  deriving DecidableEq, Repr

/-- PMem modelled as a total map from offsets to records. -/
abbrev PMem : Type := Nat → DLDataEntry

/-- `PMEMAllocator::offset2addr`: the null offset maps to the null pointer,
every other offset to the record address (identified with the offset). -/
def offset2addr (off : Nat) : Option Nat :=
  if off = 0 then none else some off

/-- `Skiplist::UserKey`: strips the 8-byte collection-id prefix from a
skiplist internal key (`Slice(skiplist_key.data() + 8, size - 8)`). -/
def userKey (k : List Nat) : List Nat := k.drop 8

/-- Modelled from the spec: byte-wise lexicographic comparison of keys, the
behaviour of `Slice::compare` (declared in `kvdk/engine.hpp`, which is not
under `src/`): memcmp over the common prefix, ties broken by length. -/
def sliceCompare : List Nat → List Nat → Ordering
  | [], [] => Ordering.eq
  | [], _ :: _ => Ordering.lt
  | _ :: _, [] => Ordering.gt
  | a :: as, b :: bs =>
    if a < b then Ordering.lt
    else if b < a then Ordering.gt
    else sliceCompare as bs

/-- `Skiplist::RandomHeight`'s loop: starting from `height = 0`, keep
incrementing while `height < kMaxHeight` and the next random draw is odd
(`fast_random() & 1`).  `rand i` is the value of the `i`-th call to
`fast_random()`; the fuel equals the bound `H` so the guard `height < H`
always fires before the fuel does. -/
def randomHeightLoop (H : Nat) (rand : Nat → Nat) : Nat → Nat → Nat → Nat
  | 0, _, height => height
  | fuel + 1, i, height =>
    if height < H ∧ rand i % 2 = 1 then
      randomHeightLoop H rand fuel (i + 1) (height + 1)
    else height

/-- `Skiplist::RandomHeight` for max height `H`, fed by the random stream
`rand`. -/
def randomHeight (H : Nat) (rand : Nat → Nat) : Nat :=
  randomHeightLoop H rand H 0 0

/-- Modelled from the spec: `MAX_SKIPLIST_LEVEL` lives in `structures.hpp`,
which is not under `src/`; the spec gives "e.g., 12". -/
def kMaxHeightSpec : Nat := 12

/-- `kCacheLevel` from `skiplist.hpp`. -/
def kCacheLevel : Nat := 3

/-- The cached-key fields of a `SkiplistNode` (`cached_key_size`,
`cached_key`). -/
structure CachedKey where
  size : Nat
  bytes : List Nat
  deriving DecidableEq, Repr

/-- `SkiplistNode::MaybeCacheKey`: cache the whole key when
`height >= kCacheLevel || key.size() <= 4`, else set `cached_key_size = 0`. -/
def maybeCacheKey (height : Nat) (key : List Nat) : CachedKey :=
  if kCacheLevel ≤ height ∨ key.length ≤ 4 then ⟨key.length, key⟩
  else ⟨0, []⟩

/-- The malloc size computed by `SkiplistNode::NewNode` for height `l` and a
key of `keyLen` bytes, with `szNode` standing for `sizeof(SkiplistNode)`:
`sizeof(SkiplistNode) + 8*l + key.size() - 4` when
`l >= kCacheLevel && key.size() > 4`, else `sizeof(SkiplistNode) + 8*l`. -/
def newNodeSize (szNode keyLen l : Nat) : Nat :=
  if kCacheLevel ≤ l ∧ 4 < keyLen then szNode + 8 * l + (keyLen - 4)
  else szNode + 8 * l

/-- The node base address computed by `NewNode`:
`(SkiplistNode *)((char *)space + 8 * l)` where `space` is the malloc
result. -/
def newNodeBase (space l : Nat) : Nat := space + 8 * l

/-- The null check in `NewNode` tests the shifted pointer `node`, not the
malloc result `space`. -/
def newNodeNullCheck (space l : Nat) : Bool :=
  decide (newNodeBase space l ≠ 0)

/-- Address of the level-`l` next pointer slot, `&next[-l]`: the atomic
pointer array sits at offset 0 of the struct, so slot `l` begins `8*l` bytes
below the node base. -/
def nextSlotAddr (base l : Nat) : Nat := base - 8 * l

/-- `SkiplistNode::heap_space_start`: `(char *)this - height * 8`. -/
def heap_space_start (base height : Nat) : Nat := base - 8 * height

/-- `HashTable::get_bucket_num`: `key_hash_value & (num_hash_buckets_ - 1)`. -/
def get_bucket_num (numBuckets hashVal : Nat) : Nat :=
  hashVal &&& (numBuckets - 1)

/-- `HashTable::get_slot_num`: `bucket / slot_grain_`. -/
def get_slot_num (slotGrain bucket : Nat) : Nat := bucket / slotGrain

/-- Modelled from the spec: `sizeof(HashEntry)`; the `HashEntry` struct lives
in a header not under `src/`, and the spec fixes a hash entry at 16 bytes. -/
def sizeofHashEntry : Nat := 16

/-- `num_entries_per_bucket_` as computed by the `HashTable` constructor:
`(hash_bucket_size_ - 8 /* next pointer */) / sizeof(HashEntry)`. -/
def num_entries_per_bucket (hashBucketSize : Nat) : Nat :=
  (hashBucketSize - 8) / sizeofHashEntry

/-- The skip loop of `SortedIterator::Next`:
`do { current = offset2addr(current->next); } while (current && current->type
== SORTED_DELETE_RECORD);`.  Fuel models the unbounded `do/while`; `none`
means the loop did not finish within the fuel, `some c` is the final value of
`current` (`c = none` being the null pointer). -/
def nextLoop (pm : PMem) : Nat → Nat → Option (Option Nat)
  | 0, _ => none
  | fuel + 1, cur =>
    match offset2addr (pm cur).next with
    | none => some none
    | some c =>
      if (pm c).type = RecordType.SortedDeleteRecord then nextLoop pm fuel c
      else some (some c)

/-- `SortedIterator::Next`: returns the new `current` together with the
returned Bool (`current != nullptr`); an invalid iterator returns `false`
untouched. -/
def iterNext (pm : PMem) (fuel : Nat) : Option Nat → Option (Option Nat × Bool)
  | none => some (none, false)
  | some cur =>
    match nextLoop pm fuel cur with
    | none => none
    | some c => some (c, c.isSome)

/-- The skip loop of `SortedIterator::Prev`:
`do { current = offset2addr(current->prev); } while (current->type ==
SORTED_DELETE_RECORD);`.  Unlike `Next` this loop dereferences `current`
without a null check, so a null prev pointer is modelled as a stuck (`none`)
outcome, like fuel exhaustion. -/
def prevLoop (pm : PMem) : Nat → Nat → Option Nat
  | 0, _ => none
  | fuel + 1, cur =>
    match offset2addr (pm cur).prev with
    | none => none
    | some c =>
      if (pm c).type = RecordType.SortedDeleteRecord then prevLoop pm fuel c
      else some c

/-- `SortedIterator::Prev`: after the skip loop, landing on the collection
header record invalidates the iterator (`current = nullptr; return false`). -/
def iterPrev (pm : PMem) (header fuel : Nat) : Option Nat → Option (Option Nat × Bool)
  | none => some (none, false)
  | some cur =>
    match prevLoop pm fuel cur with
    | none => none
    | some c =>
      if c = header then some (none, false) else some (some c, true)

/-- `SortedIterator::Key`: empty string when invalid, else the user key of
the current record (collection-id prefix stripped). -/
def iterKey (pm : PMem) : Option Nat → List Nat
  | none => []
  | some c => userKey (pm c).key

/-- `SortedIterator::Value`: empty string when invalid, else the current
record's value. -/
def iterValue (pm : PMem) : Option Nat → List Nat
  | none => []
  | some c => (pm c).value

/-- `linked pm x l`: walking `next` pointers from `x` visits exactly the
offsets in `l` and then the null offset, with matching back (`prev`)
pointers. -/
def linked (pm : PMem) : Nat → List Nat → Bool
  | x, [] => (pm x).next == 0
  | x, b :: l => ((pm x).next == b) && ((pm b).prev == x) && linked pm b l

/-- A well-formed collection chain: the header followed by the records
`rest`, doubly linked, all offsets distinct and non-null, and the header not
delete-marked (its type tag is the distinguished header tag). -/
abbrev chainWF (pm : PMem) (header : Nat) (rest : List Nat) : Prop :=
  linked pm header rest = true ∧
  (header :: rest).Nodup ∧
  (∀ o ∈ header :: rest, o ≠ 0) ∧
  (pm header).type ≠ RecordType.SortedDeleteRecord

/-- Concrete PMem for the C1 witness: header at offset 1, then a live record
(key `a`), a delete-marked record (key `b`) and a live record (key `c`). -/
def ex1Pm : PMem
  | 1 => ⟨RecordType.SortedHeaderRecord, [], [], 0, 2⟩
  | 2 => ⟨RecordType.SortedDataRecord, [97], [], 1, 3⟩
  | 3 => ⟨RecordType.SortedDeleteRecord, [98], [], 2, 4⟩
  | 4 => ⟨RecordType.SortedDataRecord, [99], [], 3, 0⟩
  | _ => ⟨RecordType.SortedDataRecord, [], [], 0, 0⟩

/-- Modelled from the spec: the search loop of `Skiplist::Seek`
(implemented in `engine/skiplist.cpp`, which is not under `src/`).  Per
§4.3 the descent advances rightward while the next record's key compares
strictly less than the target and records the first record whose key is ≥
the target as `next_data_entry`; at the bottom level this walks the record
chain from the header.  `SortedIterator::Seek` (in `src/`) then sets
`current = splice.next_data_entry`.  Outer `none` = fuel exhausted, inner
`none` = no record at or after the sought key (null `next_data_entry`). -/
def seekLoop (pm : PMem) (k : List Nat) : Nat → Nat → Option (Option Nat)
  | 0, _ => none
  | fuel + 1, off =>
    if off = 0 then some none
    else if sliceCompare k (userKey (pm off).key) = Ordering.gt then
      seekLoop pm k fuel (pm off).next
    else some (some off)

/-- Modelled from the spec: `SortedIterator::Seek(k)` — run the seek walk
from the record after the collection header and rest on the resulting
`next_data_entry`. -/
def sortedSeek (pm : PMem) (header : Nat) (k : List Nat) (fuel : Nat) :
    Option (Option Nat) :=
  seekLoop pm k fuel (pm header).next

/-- Concrete PMem for C2: header at offset 1, then live records with user
keys `a` (97), `c` (99), `e` (101), `g` (103), each stored with its 8-byte
collection-id prefix. -/
def ex2Pm : PMem
  | 1 => ⟨RecordType.SortedHeaderRecord, [], [], 0, 2⟩
  | 2 => ⟨RecordType.SortedDataRecord, [0, 0, 0, 0, 0, 0, 0, 0, 97], [118], 1, 3⟩
  | 3 => ⟨RecordType.SortedDataRecord, [0, 0, 0, 0, 0, 0, 0, 0, 99], [118], 2, 4⟩
  | 4 => ⟨RecordType.SortedDataRecord, [0, 0, 0, 0, 0, 0, 0, 0, 101], [118], 3, 5⟩
  | 5 => ⟨RecordType.SortedDataRecord, [0, 0, 0, 0, 0, 0, 0, 0, 103], [118], 4, 0⟩
  | _ => ⟨RecordType.SortedDataRecord, [], [], 0, 0⟩

/-- A volatile skip-list node as `Splice::Recompute` sees it: its key
(`SkiplistNode::Key()`, cached or read from PMem) and its per-level next
pointers (`Next(l)`); node id 0 plays the role of the null pointer. -/
structure SLNode where
  key : List Nat
  nxt : Nat → Nat

/-- `Skiplist::Splice::Recompute(key, l)`: starting from the incoming
`prevs[l]`, repeatedly read `tmp = prevs[l]->Next(l)`; a null `tmp` records
`nexts[l] = nullptr`, a `tmp` with key strictly below the target advances
`prevs[l] = tmp`, otherwise `nexts[l] = tmp`.  Returns the final
`(prevs[l], nexts[l])`; fuel models the unbounded `while (1)`. -/
def recompute (store : Nat → SLNode) (k : List Nat) (l : Nat) :
    Nat → Nat → Option (Nat × Nat)
  | 0, _ => none
  | fuel + 1, prev =>
    if (store prev).nxt l = 0 then some (prev, 0)
    else if sliceCompare k (store ((store prev).nxt l)).key = Ordering.gt then
      recompute store k l fuel ((store prev).nxt l)
    else some (prev, (store prev).nxt l)

/-- `levelLinked store l x ns`: at level `l`, following `Next(l)` from node
`x` visits exactly the nodes in `ns` and then null. -/
def levelLinked (store : Nat → SLNode) (l : Nat) : Nat → List Nat → Bool
  | x, [] => (store x).nxt l == 0
  | x, b :: t => ((store x).nxt l == b) && levelLinked store l b t

/-- Concrete store for the C4 witness: nodes 1 → 2 → 3 at level 1 with keys
`[10]`, `[20]`, `[30]`. -/
def ex4Store : Nat → SLNode
  | 1 => ⟨[10], fun l => if l = 1 then 2 else 0⟩
  | 2 => ⟨[20], fun l => if l = 1 then 3 else 0⟩
  | 3 => ⟨[30], fun _ => 0⟩
  | _ => ⟨[], fun _ => 0⟩

/- ------------------------------------------------------------------ -/
/- Helper lemmas -/
/- ------------------------------------------------------------------ -/

theorem sliceCompare_refl (a : List Nat) : sliceCompare a a = Ordering.eq := by
  induction a with
  | nil => rfl
  | cons x xs ih => simp [sliceCompare, ih]

theorem sliceCompare_eq_of (a : List Nat) :
    ∀ b, sliceCompare a b = Ordering.eq → a = b := by
  induction a with
  | nil =>
    intro b h
    cases b with
    | nil => rfl
    | cons y ys => cases h
  | cons x xs ih =>
    intro b h
    cases b with
    | nil => cases h
    | cons y ys =>
      simp only [sliceCompare] at h
      split at h
      · cases h
      · split at h
        · cases h
        · next h1 h2 =>
          have hxy : x = y := by omega
          rw [hxy, ih ys h]

theorem sliceCompare_lt_trans (a : List Nat) :
    ∀ b c, sliceCompare a b = Ordering.lt → sliceCompare b c = Ordering.lt →
      sliceCompare a c = Ordering.lt := by
  induction a with
  | nil =>
    intro b c hab hbc
    cases c with
    | nil =>
      cases b with
      | nil => cases hab
      | cons y ys => cases hbc
    | cons z zs => rfl
  | cons x xs ih =>
    intro b c hab hbc
    cases b with
    | nil => cases hab
    | cons y ys =>
      cases c with
      | nil => cases hbc
      | cons z zs =>
        simp only [sliceCompare] at hab hbc ⊢
        rcases Nat.lt_trichotomy x y with hxy | hxy | hxy
        · rcases Nat.lt_trichotomy y z with hyz | hyz | hyz
          · rw [if_pos (Nat.lt_trans hxy hyz)]
          · subst hyz; rw [if_pos hxy]
          · rw [if_neg (by omega), if_pos hyz] at hbc; cases hbc
        · subst hxy
          rw [if_neg (by omega), if_neg (by omega)] at hab
          rcases Nat.lt_trichotomy x z with hxz | hxz | hxz
          · rw [if_pos hxz]
          · subst hxz
            rw [if_neg (by omega), if_neg (by omega)] at hbc ⊢
            exact ih ys zs hab hbc
          · rw [if_neg (by omega), if_pos hxz] at hbc; cases hbc
        · rw [if_neg (by omega), if_pos hxy] at hab; cases hab

theorem sliceCompare_le_lt_trans (k a c : List Nat)
    (h1 : sliceCompare k a ≠ Ordering.gt) (h2 : sliceCompare a c = Ordering.lt) :
    sliceCompare k c = Ordering.lt := by
  cases h3 : sliceCompare k a with
  | lt => exact sliceCompare_lt_trans k a c h3 h2
  | eq => rw [sliceCompare_eq_of k a h3]; exact h2
  | gt => exact absurd h3 h1

theorem offset2addr_some {off c : Nat} (h : offset2addr off = some c) :
    off = c ∧ c ≠ 0 := by
  rw [offset2addr] at h
  split at h
  · cases h
  · next hne => exact ⟨Option.some.inj h, fun hc => hne (Option.some.inj h ▸ hc)⟩

theorem linked_next_mem (pm : PMem) :
    ∀ (l : List Nat) (x c : Nat), linked pm x l = true → c ∈ x :: l →
      (pm c).next = 0 ∨ (pm c).next ∈ l := by
  intro l
  induction l with
  | nil =>
    intro x c hl hc
    rcases List.mem_singleton.mp hc with rfl
    left
    simpa [linked] using hl
  | cons b t ih =>
    intro x c hl hc
    simp only [linked, Bool.and_eq_true, beq_iff_eq] at hl
    obtain ⟨⟨h1, _⟩, h3⟩ := hl
    rcases List.mem_cons.mp hc with rfl | hc'
    · exact Or.inr (h1 ▸ List.mem_cons_self b t)
    · exact (ih b c h3 hc').imp id (List.mem_cons_of_mem b)

theorem linked_prev_mem (pm : PMem) :
    ∀ (l : List Nat) (x c : Nat), linked pm x l = true → c ∈ l →
      (pm c).prev ∈ x :: l := by
  intro l
  induction l with
  | nil => intro x c _ hc; cases hc
  | cons b t ih =>
    intro x c hl hc
    simp only [linked, Bool.and_eq_true, beq_iff_eq] at hl
    obtain ⟨⟨_, h2⟩, h3⟩ := hl
    rcases List.mem_cons.mp hc with rfl | hc'
    · exact h2 ▸ List.mem_cons_self x (c :: t)
    · exact List.mem_cons_of_mem x (ih b c h3 hc')

theorem nextLoop_sound (pm : PMem) (header : Nat) (rest : List Nat)
    (hwf : chainWF pm header rest) :
    ∀ (fuel cur : Nat) (res : Option Nat), cur ∈ header :: rest →
      nextLoop pm fuel cur = some res →
      res = none ∨ ∃ o, res = some o ∧ o ∈ rest ∧
        (pm o).type ≠ RecordType.SortedDeleteRecord := by
  intro fuel
  induction fuel with
  | zero => intro cur res _ h; cases h
  | succ n ih =>
    intro cur res hcur h
    simp only [nextLoop] at h
    split at h
    · exact Or.inl (Option.some.inj h).symm
    · next c hoc =>
      obtain ⟨hnc, hcne⟩ := offset2addr_some hoc
      have hcm : c ∈ rest := by
        rcases linked_next_mem pm rest header cur hwf.1 hcur with h0 | hm
        · exact absurd (hnc ▸ h0) hcne
        · exact hnc ▸ hm
      split at h
      · exact ih c res (List.mem_cons_of_mem header hcm) h
      · next hdel =>
        exact Or.inr ⟨c, (Option.some.inj h).symm, hcm, hdel⟩

theorem prevLoop_sound (pm : PMem) (header : Nat) (rest : List Nat)
    (hwf : chainWF pm header rest) :
    ∀ (fuel cur res : Nat), cur ∈ rest → prevLoop pm fuel cur = some res →
      res ∈ header :: rest ∧ (pm res).type ≠ RecordType.SortedDeleteRecord := by
  intro fuel
  induction fuel with
  | zero => intro cur res _ h; cases h
  | succ n ih =>
    intro cur res hcur h
    simp only [prevLoop] at h
    split at h
    · cases h
    · next c hoc =>
      obtain ⟨hpc, hcne⟩ := offset2addr_some hoc
      have hcm : c ∈ header :: rest :=
        hpc ▸ linked_prev_mem pm rest header cur hwf.1 hcur
      split at h
      · next hdel =>
        have hch : c ≠ header := fun he => hwf.2.2.2 (he ▸ hdel)
        have hcr : c ∈ rest := by
          rcases List.mem_cons.mp hcm with rfl | hm2
          · exact absurd rfl hch
          · exact hm2
        exact ih c res hcr h
      · next hdel =>
        obtain rfl := Option.some.inj h
        exact ⟨hcm, hdel⟩

theorem randomHeightLoop_le (H : Nat) (rand : Nat → Nat) :
    ∀ fuel i height, height ≤ H → randomHeightLoop H rand fuel i height ≤ H := by
  intro fuel
  induction fuel with
  | zero => intro i height hh; simpa [randomHeightLoop] using hh
  | succ n ih =>
    intro i height hh
    simp only [randomHeightLoop]
    split
    · next hcond => exact ih (i + 1) (height + 1) hcond.1
    · exact hh

theorem maybeCacheKey_eq_cached_iff (h : Nat) (key : List Nat) :
    maybeCacheKey h key = ⟨key.length, key⟩ ↔ (3 ≤ h ∨ key.length ≤ 4) := by
  constructor
  · intro heq
    by_contra hc
    rw [maybeCacheKey, if_neg] at heq
    · have : (0 : Nat) = key.length := congrArg CachedKey.size heq
      exact hc (Or.inr (by omega))
    · simpa [kCacheLevel] using hc
  · intro hc
    rw [maybeCacheKey, if_pos]
    simpa [kCacheLevel] using hc

/- ------------------------------------------------------------------ -/
/- Claim theorems -/
/- ------------------------------------------------------------------ -/

/-- C3: the claim says every value of `Skiplist::RandomHeight` lies in
`[1, kMaxHeight]`.  The upper bound holds for every random stream, but the
loop starts at 0 and returns 0 whenever the first draw of `fast_random()` is
even, so the lower bound 1 fails: the spec (§4.3, §9) intends heights in
`[1, H_max]` and directs clamping, hence this is a bug in the code. -/
theorem randomHeight_upper_bound_but_zero_possible :
    (∀ H rand, randomHeight H rand ≤ H) ∧
    randomHeight kMaxHeightSpec (fun _ => 0) = 0 ∧
    ¬ 1 ≤ randomHeight kMaxHeightSpec (fun _ => 0) := by
  refine ⟨fun H rand => randomHeightLoop_le H rand H 0 0 (Nat.zero_le H), by decide, by decide⟩

/-- C5: a new node's key is cached inline (`cached_key_size = key.size` and
`cached_key` holding the key) exactly when `height ≥ kCacheLevel = 3` or
`key.size ≤ 4`; otherwise `cached_key_size = 0`. -/
theorem maybeCacheKey_cached_iff (h : Nat) (key : List Nat) :
    (maybeCacheKey h key = ⟨key.length, key⟩ ↔ (3 ≤ h ∨ key.length ≤ 4)) ∧
    (¬ (3 ≤ h ∨ key.length ≤ 4) → maybeCacheKey h key = ⟨0, []⟩) := by
  constructor
  · exact maybeCacheKey_eq_cached_iff h key
  · intro hc
    rw [maybeCacheKey, if_neg]
    simpa [kCacheLevel] using hc

/-- C5 witness: a height-1 node with a 5-byte key caches nothing; applied
instance of the cache criterion. -/
theorem maybeCacheKey_cached_iff_witness :
    (maybeCacheKey 1 [10, 20, 30, 40, 50] = ⟨(5 : Nat), [10, 20, 30, 40, 50]⟩ ↔
      (3 ≤ 1 ∨ (5 : Nat) ≤ 4)) ∧
    (¬ (3 ≤ 1 ∨ (5 : Nat) ≤ 4) → maybeCacheKey 1 [10, 20, 30, 40, 50] = ⟨0, []⟩) := by
  have h := maybeCacheKey_cached_iff 1 [10, 20, 30, 40, 50]
  simpa using h

/-- C6: `NewNode` allocates `sizeof(SkiplistNode) + 8*h` bytes plus
`key.size - 4` extra exactly when the key is cached and longer than 4 bytes;
the returned base sits `8*h` bytes past the allocation start, the level-`l`
next-pointer slot (`next[-l]`) lies `8*l` bytes below the base and inside the
allocation for every `1 ≤ l ≤ h`, and `heap_space_start` recovers the
allocation start, so the base does not move with level accesses. -/
theorem newNode_layout (space szNode h l : Nat) (key : List Nat)
    (h1 : 1 ≤ l) (h2 : l ≤ h) :
    newNodeSize szNode key.length h =
      szNode + 8 * h + (if kCacheLevel ≤ h ∧ 4 < key.length then key.length - 4 else 0) ∧
    ((kCacheLevel ≤ h ∧ 4 < key.length) ↔
      (maybeCacheKey h key = ⟨key.length, key⟩ ∧ 4 < key.length)) ∧
    newNodeBase space h = space + 8 * h ∧
    nextSlotAddr (newNodeBase space h) l = space + 8 * (h - l) ∧
    space ≤ nextSlotAddr (newNodeBase space h) l ∧
    nextSlotAddr (newNodeBase space h) l + 8 ≤ newNodeBase space h ∧
    heap_space_start (newNodeBase space h) h = space := by
  refine ⟨?_, ?_, rfl, ?_, ?_, ?_, ?_⟩
  · rw [newNodeSize]; split <;> simp
  · constructor
    · intro hc
      refine ⟨?_, hc.2⟩
      rw [maybeCacheKey, if_pos (Or.inl hc.1)]
    · intro hc
      rcases (maybeCacheKey_eq_cached_iff h key).mp hc.1 with h3 | h4
      · simpa [kCacheLevel] using ⟨h3, hc.2⟩
      · omega
  · rw [nextSlotAddr, newNodeBase]; omega
  · rw [nextSlotAddr, newNodeBase]; omega
  · rw [nextSlotAddr, newNodeBase]; omega
  · rw [heap_space_start, newNodeBase]; omega

/-- C6 witness: height-3 node, 6-byte key, level 1, applied instance of the
layout theorem at `space = 1000`, `szNode = 16`. -/
theorem newNode_layout_witness :
    (1 : Nat) ≤ 1 ∧ (1 : Nat) ≤ 3 ∧
    (newNodeSize 16 ([1, 2, 3, 4, 5, 6] : List Nat).length 3 =
      16 + 8 * 3 + (if kCacheLevel ≤ 3 ∧ 4 < ([1, 2, 3, 4, 5, 6] : List Nat).length
        then ([1, 2, 3, 4, 5, 6] : List Nat).length - 4 else 0) ∧
    ((kCacheLevel ≤ 3 ∧ 4 < ([1, 2, 3, 4, 5, 6] : List Nat).length) ↔
      (maybeCacheKey 3 [1, 2, 3, 4, 5, 6] =
        ⟨([1, 2, 3, 4, 5, 6] : List Nat).length, [1, 2, 3, 4, 5, 6]⟩ ∧
       4 < ([1, 2, 3, 4, 5, 6] : List Nat).length)) ∧
    newNodeBase 1000 3 = 1000 + 8 * 3 ∧
    nextSlotAddr (newNodeBase 1000 3) 1 = 1000 + 8 * (3 - 1) ∧
    1000 ≤ nextSlotAddr (newNodeBase 1000 3) 1 ∧
    nextSlotAddr (newNodeBase 1000 3) 1 + 8 ≤ newNodeBase 1000 3 ∧
    heap_space_start (newNodeBase 1000 3) 3 = 1000) :=
  ⟨by decide, by decide,
    newNode_layout 1000 16 3 1 [1, 2, 3, 4, 5, 6] (by decide) (by decide)⟩

/-- C9: the null check in `NewNode` tests `space + 8*l`, not the malloc
result: for every height `l ≥ 1`, when malloc returns null (`space = 0`) the
computed node pointer equals `8*l ≠ 0`, the check passes, and the non-null but
invalid pointer is returned. -/
theorem newNode_null_check_misses_alloc_failure (l : Nat) (hl : 1 ≤ l) :
    newNodeBase 0 l = 8 * l ∧
    newNodeBase 0 l ≠ 0 ∧
    newNodeNullCheck 0 l = true := by
  refine ⟨by rw [newNodeBase]; omega, ?_, ?_⟩
  · rw [newNodeBase]; omega
  · rw [newNodeNullCheck, decide_eq_true_eq, newNodeBase]; omega

/-- C9 witness: height 1 with a failed allocation; the check still passes. -/
theorem newNode_null_check_misses_alloc_failure_witness :
    (1 : Nat) ≤ 1 ∧
    (newNodeBase 0 1 = 8 * 1 ∧ newNodeBase 0 1 ≠ 0 ∧ newNodeNullCheck 0 1 = true) :=
  ⟨by decide, newNode_null_check_misses_alloc_failure 1 (by decide)⟩

/-- C7: with a power-of-two bucket count `B`, the chosen bucket is
`hash & (B - 1) = hash % B`, and the spin-mutex shard of a bucket is
`bucket / G`, so shard `s` covers exactly the `G` consecutive buckets
`[G*s, G*s + G)`. -/
theorem hash_bucket_and_slot (B G hv s b k : Nat) (hB : B = 2 ^ k) (hG : 0 < G) :
    get_bucket_num B hv = hv % B ∧
    (get_slot_num G b = s ↔ G * s ≤ b ∧ b < G * s + G) := by
  constructor
  · rw [get_bucket_num, hB]
    exact Nat.and_pow_two_sub_one_eq_mod hv k
  · rw [get_slot_num]
    constructor
    · intro hdiv
      have hmod := Nat.div_add_mod b G
      have hlt : b % G < G := Nat.mod_lt b hG
      rw [hdiv] at hmod
      omega
    · intro hrange
      exact Nat.div_eq_of_lt_le (by rw [Nat.mul_comm s G]; exact hrange.1)
        (by rw [Nat.mul_comm (s + 1) G, Nat.mul_succ]; omega)

/-- C7 witness: `B = 8 = 2^3`, `G = 2`, hash 13 lands in bucket `13 % 8 = 5`,
which belongs to shard 2 covering buckets 4 and 5. -/
theorem hash_bucket_and_slot_witness :
    (8 : Nat) = 2 ^ 3 ∧ (0 : Nat) < 2 ∧
    (get_bucket_num 8 13 = 13 % 8 ∧
      (get_slot_num 2 5 = 2 ↔ 2 * 2 ≤ 5 ∧ 5 < 2 * 2 + 2)) :=
  ⟨by decide, by decide, hash_bucket_and_slot 8 2 13 2 5 3 (by decide) (by decide)⟩

/-- C8: the constructor computes `num_entries_per_bucket_ = (S - 8) / 16`,
and (for `S ≥ 8`) this is the largest number of 16-byte hash entries that fit
in an `S`-byte bucket next to the trailing 8-byte overflow pointer. -/
theorem num_entries_per_bucket_eq (S : Nat) :
    num_entries_per_bucket S = (S - 8) / 16 ∧
    (8 ≤ S →
      sizeofHashEntry * num_entries_per_bucket S + 8 ≤ S ∧
      S < sizeofHashEntry * (num_entries_per_bucket S + 1) + 8) := by
  constructor
  · rfl
  · intro hS
    rw [num_entries_per_bucket, sizeofHashEntry]
    omega

/-- C8 witness: a 64-byte bucket holds exactly 3 entries
(`16*3 + 8 = 56 ≤ 64 < 72`). -/
theorem num_entries_per_bucket_eq_witness :
    num_entries_per_bucket 64 = (64 - 8) / 16 ∧
    (8 ≤ 64 →
      sizeofHashEntry * num_entries_per_bucket 64 + 8 ≤ 64 ∧
      64 < sizeofHashEntry * (num_entries_per_bucket 64 + 1) + 8) :=
  num_entries_per_bucket_eq 64

/-- C1: on a well-formed collection chain, a successful `Next` or `Prev`
always rests on a chain record that is neither delete-marked
(`SORTED_DELETE_RECORD`) nor the collection header; an unsuccessful one
leaves the iterator invalid (`current = nullptr`), and whenever the `Prev`
walk arrives at the header record the iterator is invalidated.  (`Next`
walks away from the header, which on a well-formed chain is never a
forward successor, so the header conjunct holds in both directions.) -/
theorem sortedIterator_skips_deletes_and_header
    (pm : PMem) (header : Nat) (rest : List Nat) (cur fuelN fuelP : Nat)
    (resN : Option Nat) (bN : Bool) (resP : Option Nat) (bP : Bool)
    (hwf : chainWF pm header rest) (hcur : cur ∈ rest)
    (hN : iterNext pm fuelN (some cur) = some (resN, bN))
    (hP : iterPrev pm header fuelP (some cur) = some (resP, bP)) :
    (bN = true → ∃ o, resN = some o ∧ o ∈ rest ∧
      (pm o).type ≠ RecordType.SortedDeleteRecord ∧ o ≠ header) ∧
    (bN = false → resN = none) ∧
    (bP = true → ∃ o, resP = some o ∧ o ∈ rest ∧
      (pm o).type ≠ RecordType.SortedDeleteRecord ∧ o ≠ header) ∧
    (bP = false → resP = none) ∧
    (prevLoop pm fuelP cur = some header → resP = none ∧ bP = false) := by
  have hnh : header ∉ rest := (List.nodup_cons.mp hwf.2.1).1
  simp only [iterNext] at hN
  simp only [iterPrev] at hP
  split at hN
  · cases hN
  · next c hnl =>
    simp only [Option.some.injEq, Prod.mk.injEq] at hN
    obtain ⟨rfl, rfl⟩ := hN
    have hn1 : c.isSome = true → ∃ o, c = some o ∧ o ∈ rest ∧
        (pm o).type ≠ RecordType.SortedDeleteRecord ∧ o ≠ header := by
      intro hb
      obtain ⟨o, rfl⟩ := Option.isSome_iff_exists.mp hb
      rcases nextLoop_sound pm header rest hwf fuelN cur (some o)
          (List.mem_cons_of_mem header hcur) hnl with h0 | ⟨o2, ho2, hm, ht⟩
      · cases h0
      · obtain rfl := Option.some.inj ho2
        exact ⟨o, rfl, hm, ht, fun he => hnh (he ▸ hm)⟩
    have hn2 : c.isSome = false → c = none := by
      intro hb
      cases c with
      | none => rfl
      | some o => exact absurd hb (by simp)
    split at hP
    · cases hP
    · next d hpl =>
      have hdp := prevLoop_sound pm header rest hwf fuelP cur d hcur hpl
      by_cases hdh : d = header
      · rw [if_pos hdh] at hP
        simp only [Option.some.injEq, Prod.mk.injEq] at hP
        obtain ⟨rfl, rfl⟩ := hP
        exact ⟨hn1, hn2, fun hb => absurd hb (by decide), fun _ => rfl,
          fun _ => ⟨rfl, rfl⟩⟩
      · rw [if_neg hdh] at hP
        simp only [Option.some.injEq, Prod.mk.injEq] at hP
        obtain ⟨rfl, rfl⟩ := hP
        have hdr : d ∈ rest := by
          rcases List.mem_cons.mp hdp.1 with rfl | hm2
          · exact absurd rfl hdh
          · exact hm2
        refine ⟨hn1, hn2, fun _ => ⟨d, rfl, hdr, hdp.2, hdh⟩,
          fun hb => absurd hb (by decide), ?_⟩
        intro hh
        exact absurd (Option.some.inj (hpl.symm.trans hh)) hdh

/-- C1 witness: on the concrete chain header(1) → a(2) → b†(3, delete) →
c(4), stepping from the delete-marked record 3: `Next` lands on the live
record 4 and `Prev` lands on the live record 2, neither delete-marked nor
the header. -/
theorem sortedIterator_skips_deletes_and_header_witness :
    chainWF ex1Pm 1 [2, 3, 4] ∧ (3 : Nat) ∈ [2, 3, 4] ∧
    iterNext ex1Pm 10 (some 3) = some (some 4, true) ∧
    iterPrev ex1Pm 1 10 (some 3) = some (some 2, true) ∧
    ((true = true → ∃ o, (some 4 : Option Nat) = some o ∧ o ∈ [2, 3, 4] ∧
        (ex1Pm o).type ≠ RecordType.SortedDeleteRecord ∧ o ≠ 1) ∧
     (true = false → (some 4 : Option Nat) = none) ∧
     (true = true → ∃ o, (some 2 : Option Nat) = some o ∧ o ∈ [2, 3, 4] ∧
        (ex1Pm o).type ≠ RecordType.SortedDeleteRecord ∧ o ≠ 1) ∧
     (true = false → (some 2 : Option Nat) = none) ∧
     (prevLoop ex1Pm 10 3 = some 1 → (some 2 : Option Nat) = none ∧ true = false)) :=
  ⟨by decide, by decide, by decide, by decide,
    sortedIterator_skips_deletes_and_header ex1Pm 1 [2, 3, 4] 3 10 10 (some 4) true
      (some 2) true (by decide) (by decide) (by decide) (by decide)⟩

/-- C10: on an invalid iterator (`current = nullptr`), `Next` and `Prev`
return `false` with the position left unchanged (still null), and `Key` and
`Value` return the empty string; none of them reads any PMem record (the
results are the same for every `pm`). -/
theorem invalid_iterator_is_inert (pm : PMem) (header fuel : Nat) :
    iterNext pm fuel none = some (none, false) ∧
    iterPrev pm header fuel none = some (none, false) ∧
    iterKey pm none = [] ∧
    iterValue pm none = [] :=
  ⟨rfl, rfl, rfl, rfl⟩

theorem seekLoop_sound (pm : PMem) (k : List Nat) :
    ∀ (l : List Nat) (x fuel : Nat) (res : Option Nat),
      linked pm x l = true → (∀ m ∈ l, m ≠ 0) →
      List.Pairwise (fun a b =>
        sliceCompare (userKey (pm a).key) (userKey (pm b).key) = Ordering.lt) l →
      seekLoop pm k fuel ((pm x).next) = some res →
      (res = none → ∀ m ∈ l, sliceCompare k (userKey (pm m).key) = Ordering.gt) ∧
      (∀ o, res = some o → o ∈ l ∧
        sliceCompare k (userKey (pm o).key) ≠ Ordering.gt ∧
        ∀ m ∈ l, sliceCompare k (userKey (pm m).key) ≠ Ordering.gt →
          sliceCompare (userKey (pm o).key) (userKey (pm m).key) ≠ Ordering.gt) := by
  intro l
  induction l with
  | nil =>
    intro x fuel res hl _ _ hrun
    have hx0 : (pm x).next = 0 := by simpa [linked] using hl
    cases fuel with
    | zero => cases hrun
    | succ n =>
      simp only [seekLoop, hx0, if_pos] at hrun
      obtain rfl := Option.some.inj hrun
      exact ⟨fun _ m hm => absurd hm (List.not_mem_nil m),
        fun o ho => by cases ho⟩
  | cons b t ih =>
    intro x fuel res hl hnz hsort hrun
    simp only [linked, Bool.and_eq_true, beq_iff_eq] at hl
    obtain ⟨⟨h1, _⟩, h3⟩ := hl
    have hb0 : b ≠ 0 := hnz b (List.mem_cons_self b t)
    cases fuel with
    | zero => cases hrun
    | succ n =>
      simp only [seekLoop, h1] at hrun
      rw [if_neg hb0] at hrun
      by_cases hgt : sliceCompare k (userKey (pm b).key) = Ordering.gt
      · rw [if_pos hgt] at hrun
        have hrec := ih b n res h3
          (fun m hm => hnz m (List.mem_cons_of_mem b hm))
          (List.Pairwise.of_cons hsort) hrun
        constructor
        · intro hres m hm
          rcases List.mem_cons.mp hm with rfl | hm2
          · exact hgt
          · exact hrec.1 hres m hm2
        · intro o ho
          obtain ⟨hol, hok, homin⟩ := hrec.2 o ho
          refine ⟨List.mem_cons_of_mem b hol, hok, ?_⟩
          intro m hm hkm
          rcases List.mem_cons.mp hm with rfl | hm2
          · exact absurd hgt hkm
          · exact homin m hm2 hkm
      · rw [if_neg hgt] at hrun
        obtain rfl := Option.some.inj hrun
        constructor
        · intro hres; cases hres
        · intro o ho
          obtain rfl := Option.some.inj ho
          refine ⟨List.mem_cons_self b t, hgt, ?_⟩
          intro m hm _
          rcases List.mem_cons.mp hm with rfl | hm2
          · rw [sliceCompare_refl]; decide
          · rw [(List.pairwise_cons.mp hsort).1 m hm2]; decide

/-- C2: after `SortedIterator::Seek(k)` the iterator rests on the record
whose user key is the smallest one ≥ `k` among the chain's records (and is
invalid when every record's key is < `k`); in particular on the concrete
collection `a, c, e, g` (all live), seeking `f` rests on `g` and a
subsequent `Prev` (the real `src/` code) rests on `e`.  The seek walk is
modelled from the spec, `Skiplist::Seek`'s body being outside `src/`. -/
theorem sortedSeek_smallest_geq
    (pm : PMem) (header : Nat) (rest : List Nat) (k : List Nat) (fuel : Nat)
    (hwf : chainWF pm header rest)
    (hsort : List.Pairwise (fun a b =>
      sliceCompare (userKey (pm a).key) (userKey (pm b).key) = Ordering.lt) rest) :
    (∀ o, sortedSeek pm header k fuel = some (some o) →
      o ∈ rest ∧ sliceCompare k (userKey (pm o).key) ≠ Ordering.gt ∧
      ∀ m ∈ rest, sliceCompare k (userKey (pm m).key) ≠ Ordering.gt →
        sliceCompare (userKey (pm o).key) (userKey (pm m).key) ≠ Ordering.gt) ∧
    (sortedSeek pm header k fuel = some none →
      ∀ m ∈ rest, sliceCompare k (userKey (pm m).key) = Ordering.gt) ∧
    (sortedSeek ex2Pm 1 [102] 10 = some (some 5) ∧
     userKey (ex2Pm 5).key = [103] ∧
     iterPrev ex2Pm 1 10 (some 5) = some (some 4, true) ∧
     userKey (ex2Pm 4).key = [101]) := by
  have hnz : ∀ m ∈ rest, m ≠ 0 :=
    fun m hm => hwf.2.2.1 m (List.mem_cons_of_mem header hm)
  refine ⟨?_, ?_, by decide, by decide, by decide, by decide⟩
  · intro o ho
    simp only [sortedSeek] at ho
    exact (seekLoop_sound pm k rest header fuel (some o) hwf.1 hnz hsort ho).2 o rfl
  · intro hnone
    simp only [sortedSeek] at hnone
    exact (seekLoop_sound pm k rest header fuel none hwf.1 hnz hsort hnone).1 rfl

/-- C2 witness: the general lower-bound property applied to the concrete
collection `a, c, e, g` with sought key `f`. -/
theorem sortedSeek_smallest_geq_witness :
    chainWF ex2Pm 1 [2, 3, 4, 5] ∧
    List.Pairwise (fun a b =>
      sliceCompare (userKey (ex2Pm a).key) (userKey (ex2Pm b).key) = Ordering.lt)
      [2, 3, 4, 5] ∧
    ((∀ o, sortedSeek ex2Pm 1 [102] 10 = some (some o) →
      o ∈ [2, 3, 4, 5] ∧ sliceCompare [102] (userKey (ex2Pm o).key) ≠ Ordering.gt ∧
      ∀ m ∈ [2, 3, 4, 5], sliceCompare [102] (userKey (ex2Pm m).key) ≠ Ordering.gt →
        sliceCompare (userKey (ex2Pm o).key) (userKey (ex2Pm m).key) ≠ Ordering.gt) ∧
    (sortedSeek ex2Pm 1 [102] 10 = some none →
      ∀ m ∈ [2, 3, 4, 5], sliceCompare [102] (userKey (ex2Pm m).key) = Ordering.gt) ∧
    (sortedSeek ex2Pm 1 [102] 10 = some (some 5) ∧
     userKey (ex2Pm 5).key = [103] ∧
     iterPrev ex2Pm 1 10 (some 5) = some (some 4, true) ∧
     userKey (ex2Pm 4).key = [101])) :=
  ⟨by decide, by decide,
    sortedSeek_smallest_geq ex2Pm 1 [2, 3, 4, 5] [102] 10 (by decide) (by decide)⟩

theorem recompute_sound (store : Nat → SLNode) (k : List Nat) (l : Nat) :
    ∀ (ns : List Nat) (p0 fuel p nx : Nat),
      levelLinked store l p0 ns = true → (∀ m ∈ ns, m ≠ 0) →
      List.Pairwise (fun a b =>
        sliceCompare (store a).key (store b).key = Ordering.lt) ns →
      recompute store k l fuel p0 = some (p, nx) →
      ∃ before after, ns = before ++ after ∧
        (∀ m ∈ before, sliceCompare k (store m).key = Ordering.gt) ∧
        (∀ m ∈ after, sliceCompare k (store m).key ≠ Ordering.gt) ∧
        p = before.getLastD p0 ∧
        nx = after.headD 0 ∧
        nx = (store p).nxt l := by
  intro ns
  induction ns with
  | nil =>
    intro p0 fuel p nx hl _ _ hrun
    have h0 : (store p0).nxt l = 0 := by simpa [levelLinked] using hl
    cases fuel with
    | zero => cases hrun
    | succ n =>
      simp only [recompute, h0, if_pos] at hrun
      simp only [Option.some.injEq, Prod.mk.injEq] at hrun
      obtain ⟨rfl, rfl⟩ := hrun
      exact ⟨[], [], rfl, by simp, by simp, rfl, rfl, h0.symm⟩
  | cons b t ih =>
    intro p0 fuel p nx hl hnz hsort hrun
    simp only [levelLinked, Bool.and_eq_true, beq_iff_eq] at hl
    obtain ⟨h1, h3⟩ := hl
    have hb0 : b ≠ 0 := hnz b (List.mem_cons_self b t)
    cases fuel with
    | zero => cases hrun
    | succ n =>
      simp only [recompute, h1] at hrun
      rw [if_neg hb0] at hrun
      by_cases hgt : sliceCompare k (store b).key = Ordering.gt
      · rw [if_pos hgt] at hrun
        obtain ⟨before2, after2, hsplit, hbef, haft, hp, hnx, hnxp⟩ :=
          ih b n p nx h3 (fun m hm => hnz m (List.mem_cons_of_mem b hm))
            (List.Pairwise.of_cons hsort) hrun
        refine ⟨b :: before2, after2, by rw [hsplit, List.cons_append], ?_,
          haft, ?_, hnx, hnxp⟩
        · intro m hm
          rcases List.mem_cons.mp hm with rfl | hm2
          · exact hgt
          · exact hbef m hm2
        · rw [List.getLastD_cons]; exact hp
      · rw [if_neg hgt] at hrun
        simp only [Option.some.injEq, Prod.mk.injEq] at hrun
        obtain ⟨rfl, rfl⟩ := hrun
        refine ⟨[], b :: t, rfl, by simp, ?_, rfl, rfl, h1.symm⟩
        intro m hm
        rcases List.mem_cons.mp hm with rfl | hm2
        · exact hgt
        · have hlt := sliceCompare_le_lt_trans k (store b).key (store m).key hgt
            ((List.pairwise_cons.mp hsort).1 m hm2)
          rw [hlt]; decide

/-- C4: on a stable level-`l` chain `p0 → ns → null` whose keys ascend,
`Splice::Recompute(k, l)` splits the chain at the target: every node it
walked past (`before`) has key strictly below `k`, every remaining node
(`after`) has key ≥ `k`, `prevs[l]` ends up the rightmost node below `k`
(the last of `before`, or the start node when none is) and `nexts[l]` ends
up the node following `prevs[l]` — the first node with key ≥ `k`, or null
(0) when there is none. -/
theorem splice_recompute_window
    (store : Nat → SLNode) (k : List Nat) (l : Nat) (ns : List Nat)
    (p0 fuel p nx : Nat)
    (hlink : levelLinked store l p0 ns = true)
    (hnz : ∀ m ∈ ns, m ≠ 0)
    (hsort : List.Pairwise (fun a b =>
      sliceCompare (store a).key (store b).key = Ordering.lt) ns)
    (hrun : recompute store k l fuel p0 = some (p, nx)) :
    ∃ before after, ns = before ++ after ∧
      (∀ m ∈ before, sliceCompare k (store m).key = Ordering.gt) ∧
      (∀ m ∈ after, sliceCompare k (store m).key ≠ Ordering.gt) ∧
      p = before.getLastD p0 ∧
      nx = after.headD 0 ∧
      nx = (store p).nxt l :=
  recompute_sound store k l ns p0 fuel p nx hlink hnz hsort hrun

/-- C4 witness: level-1 chain `1 → 2 → 3` with keys `[10], [20], [30]` and
target key `[25]`: `Recompute` yields `prevs[1] = 2`, `nexts[1] = 3`. -/
theorem splice_recompute_window_witness :
    levelLinked ex4Store 1 1 [2, 3] = true ∧
    (∀ m ∈ [2, 3], m ≠ 0) ∧
    List.Pairwise (fun a b =>
      sliceCompare (ex4Store a).key (ex4Store b).key = Ordering.lt) [2, 3] ∧
    recompute ex4Store [25] 1 10 1 = some (2, 3) ∧
    (∃ before after, [2, 3] = before ++ after ∧
      (∀ m ∈ before, sliceCompare [25] (ex4Store m).key = Ordering.gt) ∧
      (∀ m ∈ after, sliceCompare [25] (ex4Store m).key ≠ Ordering.gt) ∧
      2 = before.getLastD 1 ∧
      3 = after.headD 0 ∧
      3 = (ex4Store 2).nxt 1) :=
  ⟨by decide, by decide, by decide, by decide,
    splice_recompute_window ex4Store [25] 1 [2, 3] 1 10 2 3
      (by decide) (by decide) (by decide) (by decide)⟩
